import Mathlib

/-!
Verification of the chizuts dependency-graph construction pipeline.

The definitions below are shallow embeddings of the TypeScript sources:
the graph-builder domain service (src/domain/services/graph-builder.ts),
the TypeScript parser adapter
(src/infrastructure/typescript-parser/typescript-parser.adapter.ts),
the edge model (domain/models/edge.ts) and the watch-mode reanalysis
loop of the CLI together with the visualization server.

JavaScript strings are modelled as Lean `String` values, except for the
module-id path computation, where `List Char` is used so that suffix and
take operations mirror the anchored regex replacements directly.
JavaScript `Map` and `Set` objects are modelled as association lists and
lists: `Map.set` conses a binding (lookup returns the most recent one,
matching last-set-wins), `Set.add` conses an element.
-/

namespace Chizuts

/-- A graph node as produced by createNode: the fields that take part in
graph algorithms (label and kind are carried along, metadata and source
locations are informational and omitted). -/
structure Node where
  id : String
  label : String
  type : String
  deriving Repr, DecidableEq

/-- A graph edge as produced by createEdge: source and target node ids
and the edge kind string. -/
structure Edge where
  source : String
  target : String
  type : String
  deriving Repr, DecidableEq

/-- The per-file parse result: the node and edge lists returned by
parseSourceFile for one file. -/
structure ParsedFile where
  nodes : List Node
  edges : List Edge

/-- Graph metadata assembled by createGraphMetadata. -/
structure GraphMetadata where
  rootDir : String
  fileCount : Nat
  version : String
  deriving Repr, DecidableEq

/-- The aggregate returned by createDependencyGraph. -/
structure DependencyGraph where
  nodes : List Node
  edges : List Edge
  metadata : GraphMetadata

/-- The edge dedup key used by buildGraph:
the string source ++ "->" ++ target ++ ":" ++ type. -/
def edgeKey (e : Edge) : String :=
  e.source ++ "->" ++ e.target ++ ":" ++ e.type

/-- The (source, target, type) triple of an edge. -/
def edgeTriple (e : Edge) : String × String × String :=
  (e.source, e.target, e.type)

/-- The edge dedup key as a function of the (source, target, type)
triple; edgeKey factors through it. -/
def tripleKey (t : String × String × String) : String :=
  t.1 ++ "->" ++ t.2.1 ++ ":" ++ t.2.2

/-- The inner loop of buildGraph over one file entry for nodes: push the
node and record its id unless the id was already seen. -/
def addNodesLoop : List Node → List Node → List String → List Node × List String
  | [], acc, seen => (acc, seen)
  | n :: rest, acc, seen =>
    if n.id ∈ seen then addNodesLoop rest acc seen
    else addNodesLoop rest (acc ++ [n]) (n.id :: seen)

/-- The inner loop of buildGraph over one file entry for edges: push the
edge and record its key unless the key was already seen. -/
def addEdgesLoop : List Edge → List Edge → List String → List Edge × List String
  | [], acc, seen => (acc, seen)
  | e :: rest, acc, seen =>
    if edgeKey e ∈ seen then addEdgesLoop rest acc seen
    else addEdgesLoop rest (acc ++ [e]) (edgeKey e :: seen)

/-- The outer loop of buildGraph over the parsed files, threading the
accumulated node and edge lists and the two seen sets. -/
def buildGraphLoop :
    List ParsedFile → List Node → List Edge → List String → List String →
    List Node × List Edge
  | [], accN, accE, _, _ => (accN, accE)
  | f :: rest, accN, accE, seenN, seenE =>
    let pn := addNodesLoop f.nodes accN seenN
    let pe := addEdgesLoop f.edges accE seenE
    buildGraphLoop rest pn.1 pe.1 pn.2 pe.2

/-- buildGraph from graph-builder.ts: aggregate the per-file node and
edge lists, dropping nodes whose id and edges whose key were seen
before, then attach metadata with fileCount the number of parsed
files. -/
def buildGraph (parsedFiles : List ParsedFile) (rootDir version : String) :
    DependencyGraph :=
  let p := buildGraphLoop parsedFiles [] [] [] []
  { nodes := p.1
    edges := p.2
    metadata :=
      { rootDir := rootDir
        fileCount := parsedFiles.length
        version := version } }

/-- Specification-side dedup: keep each element whose key has not
occurred earlier (first occurrence in traversal order wins), dropping
later duplicates unchanged. -/
def dedupByKey {α : Type} (key : α → String) : List α → List String → List α
  | [], _ => []
  | a :: rest, seen =>
    if key a ∈ seen then dedupByKey key rest seen
    else a :: dedupByKey key rest (key a :: seen)

/-- The seen set left behind by a dedup pass. -/
def seenAfter {α : Type} (key : α → String) : List α → List String → List String
  | [], seen => seen
  | a :: rest, seen =>
    if key a ∈ seen then seenAfter key rest seen
    else seenAfter key rest (key a :: seen)

theorem addNodesLoop_eq (xs : List Node) (acc : List Node) (seen : List String) :
    addNodesLoop xs acc seen =
      (acc ++ dedupByKey Node.id xs seen, seenAfter Node.id xs seen) := by
  induction xs generalizing acc seen with
  | nil => simp [addNodesLoop, dedupByKey, seenAfter]
  | cons a rest ih =>
    by_cases h : a.id ∈ seen
    · simp [addNodesLoop, dedupByKey, seenAfter, h, ih]
    · simp [addNodesLoop, dedupByKey, seenAfter, h, ih]

theorem addEdgesLoop_eq (xs : List Edge) (acc : List Edge) (seen : List String) :
    addEdgesLoop xs acc seen =
      (acc ++ dedupByKey edgeKey xs seen, seenAfter edgeKey xs seen) := by
  induction xs generalizing acc seen with
  | nil => simp [addEdgesLoop, dedupByKey, seenAfter]
  | cons a rest ih =>
    by_cases h : edgeKey a ∈ seen
    · simp [addEdgesLoop, dedupByKey, seenAfter, h, ih]
    · simp [addEdgesLoop, dedupByKey, seenAfter, h, ih]

theorem dedupByKey_append {α : Type} (key : α → String)
    (xs ys : List α) (seen : List String) :
    dedupByKey key (xs ++ ys) seen =
      dedupByKey key xs seen ++ dedupByKey key ys (seenAfter key xs seen) := by
  induction xs generalizing seen with
  | nil => simp [dedupByKey, seenAfter]
  | cons a rest ih =>
    by_cases h : key a ∈ seen
    · simp [dedupByKey, seenAfter, h, ih]
    · simp [dedupByKey, seenAfter, h, ih]

theorem seenAfter_append {α : Type} (key : α → String)
    (xs ys : List α) (seen : List String) :
    seenAfter key (xs ++ ys) seen =
      seenAfter key ys (seenAfter key xs seen) := by
  induction xs generalizing seen with
  | nil => simp [seenAfter]
  | cons a rest ih =>
    by_cases h : key a ∈ seen
    · simp [seenAfter, h, ih]
    · simp [seenAfter, h, ih]

/-- The whole builder loop equals per-key dedup of the concatenated
per-file lists, independently for nodes and for edges. -/
theorem buildGraphLoop_eq (files : List ParsedFile)
    (accN : List Node) (accE : List Edge) (seenN seenE : List String) :
    buildGraphLoop files accN accE seenN seenE =
      (accN ++ dedupByKey Node.id (files.flatMap ParsedFile.nodes) seenN,
       accE ++ dedupByKey edgeKey (files.flatMap ParsedFile.edges) seenE) := by
  induction files generalizing accN accE seenN seenE with
  | nil => simp [buildGraphLoop, dedupByKey]
  | cons f rest ih =>
    simp only [buildGraphLoop, addNodesLoop_eq, addEdgesLoop_eq, ih,
      List.flatMap_cons, dedupByKey_append, seenAfter_append, List.append_assoc]

theorem buildGraph_nodes_eq (parsedFiles : List ParsedFile) (rootDir version : String) :
    (buildGraph parsedFiles rootDir version).nodes =
      dedupByKey Node.id (parsedFiles.flatMap ParsedFile.nodes) [] := by
  simp [buildGraph, buildGraphLoop_eq]

theorem buildGraph_edges_eq (parsedFiles : List ParsedFile) (rootDir version : String) :
    (buildGraph parsedFiles rootDir version).edges =
      dedupByKey edgeKey (parsedFiles.flatMap ParsedFile.edges) [] := by
  simp [buildGraph, buildGraphLoop_eq]

/-- Keys kept by a dedup pass are pairwise distinct and avoid the
initial seen set. -/
theorem dedupByKey_nodup {α : Type} (key : α → String) (xs : List α)
    (seen : List String) :
    ((dedupByKey key xs seen).map key).Nodup ∧
      ∀ k ∈ (dedupByKey key xs seen).map key, k ∉ seen := by
  induction xs generalizing seen with
  | nil => simp [dedupByKey]
  | cons a rest ih =>
    by_cases h : key a ∈ seen
    · simpa [dedupByKey, h] using ih seen
    · have ihr := ih (key a :: seen)
      refine ⟨?_, ?_⟩
      · simp only [dedupByKey, h, if_false, List.map_cons, List.nodup_cons]
        refine ⟨fun hmem => ?_, ihr.1⟩
        exact (ihr.2 _ hmem) (List.mem_cons_self _ _)
      · intro k hk
        simp only [dedupByKey, h, if_false, List.map_cons, List.mem_cons] at hk
        rcases hk with rfl | hk
        · exact h
        · intro hks
          exact (ihr.2 _ hk) (List.mem_cons_of_mem _ hks)

/-- Elements kept by a dedup pass come from the input list. -/
theorem dedupByKey_subset {α : Type} (key : α → String) (xs : List α)
    (seen : List String) :
    ∀ a ∈ dedupByKey key xs seen, a ∈ xs := by
  induction xs generalizing seen with
  | nil => simp [dedupByKey]
  | cons b rest ih =>
    intro a ha
    by_cases h : key b ∈ seen
    · simp only [dedupByKey, h, if_true] at ha
      exact List.mem_cons_of_mem _ (ih seen a ha)
    · simp only [dedupByKey, h, if_false, List.mem_cons] at ha
      rcases ha with rfl | ha
      · exact List.mem_cons_self _ _
      · exact List.mem_cons_of_mem _ (ih (key b :: seen) a ha)

theorem edgeKey_eq_tripleKey (e : Edge) : edgeKey e = tripleKey (edgeTriple e) := rfl

/-- C1: for every list of parsed files, buildGraph returns a graph in
which no two nodes share an id and no two edges share the same
(source, target, type) triple, and the kept nodes and edges are exactly
the first occurrences in traversal order; later duplicates are dropped
without merging. -/
theorem buildGraph_dedup_invariants (parsedFiles : List ParsedFile)
    (rootDir version : String) :
    (((buildGraph parsedFiles rootDir version).nodes.map Node.id).Nodup ∧
      ((buildGraph parsedFiles rootDir version).edges.map edgeTriple).Nodup) ∧
    (buildGraph parsedFiles rootDir version).nodes =
      dedupByKey Node.id (parsedFiles.flatMap ParsedFile.nodes) [] ∧
    (buildGraph parsedFiles rootDir version).edges =
      dedupByKey edgeKey (parsedFiles.flatMap ParsedFile.edges) [] := by
  refine ⟨⟨?_, ?_⟩, buildGraph_nodes_eq _ _ _, buildGraph_edges_eq _ _ _⟩
  · rw [buildGraph_nodes_eq]
    exact (dedupByKey_nodup Node.id _ []).1
  · rw [buildGraph_edges_eq]
    have hkeys := (dedupByKey_nodup edgeKey (parsedFiles.flatMap ParsedFile.edges) []).1
    have hfac :
        (dedupByKey edgeKey (parsedFiles.flatMap ParsedFile.edges) []).map edgeKey =
          ((dedupByKey edgeKey (parsedFiles.flatMap ParsedFile.edges) []).map
            edgeTriple).map tripleKey := by
      simp [List.map_map, Function.comp, edgeKey_eq_tripleKey]
    rw [hfac] at hkeys
    exact hkeys.of_map tripleKey

/-- Association-list model of a JavaScript Map: lookup returns the most
recently set binding, since Map.set is modelled by consing. -/
def mLookup : List (String × String) → String → Option String
  | [], _ => none
  | p :: rest, k => if p.1 = k then some p.2 else mLookup rest k

/-- The JavaScript expression a.text || b for an optional identifier a:
falls back to b when a is absent or the empty string. -/
def orElseStr (a : Option String) (b : String) : String :=
  match a with
  | some s => if s = "" then b else s
  | none => b

/-- The chain-following while loop of resolveReexportChains: while the
current id is a key of the table and has not been visited, mark it
visited and step to its target. The fuel argument bounds the number of
iterations; the termination theorem shows the result is the same for
every fuel of at least the table size plus one, so the bound is never
the deciding factor. -/
def chaseAux (m : List (String × String)) : Nat → String → List String → String
  | 0, current, _ => current
  | fuel + 1, current, visited =>
    match mLookup m current with
    | some next =>
        if current ∈ visited then current
        else chaseAux m fuel next (current :: visited)
    | none => current

/-- resolveReexportChains: map every table entry to the end of its
chain, starting the visited set at the entry key. -/
def resolveReexportChains (m : List (String × String)) : List (String × String) :=
  m.map (fun p => (p.1, chaseAux m (m.length + 1) p.2 [p.1]))

/-- Number of distinct keys of the table not yet visited: the quantity
that shrinks on every iteration of the chain-following loop. -/
def countNewKeys (m : List (String × String)) (visited : List String) : Nat :=
  ((m.map Prod.fst).dedup.filter (fun k => k ∉ visited)).length

theorem mLookup_mem_keys {m : List (String × String)} {k v : String}
    (h : mLookup m k = some v) : k ∈ m.map Prod.fst := by
  induction m with
  | nil => simp [mLookup] at h
  | cons p rest ih =>
    by_cases hp : p.1 = k
    · simp [hp]
    · simp only [mLookup, hp, if_false] at h
      exact List.mem_cons_of_mem _ (ih h)

theorem mLookup_mem_values {m : List (String × String)} {k v : String}
    (h : mLookup m k = some v) : v ∈ m.map Prod.snd := by
  induction m with
  | nil => simp [mLookup] at h
  | cons p rest ih =>
    by_cases hp : p.1 = k
    · simp only [mLookup, hp, if_true] at h
      rw [List.map_cons]
      exact List.mem_cons.mpr (Or.inl (Option.some.inj h).symm)
    · simp only [mLookup, hp, if_false] at h
      exact List.mem_cons_of_mem _ (ih h)

theorem mLookup_eq_none {m : List (String × String)} {k : String}
    (h : k ∉ m.map Prod.fst) : mLookup m k = none := by
  induction m with
  | nil => rfl
  | cons p rest ih =>
    simp only [List.map_cons, List.mem_cons, not_or] at h
    have hne : p.1 ≠ k := fun he => h.1 he.symm
    simp only [mLookup, if_neg hne]
    exact ih h.2

theorem filter_length_le {α : Type} (p q : α → Bool)
    (hpq : ∀ a, p a = true → q a = true) (l : List α) :
    (l.filter p).length ≤ (l.filter q).length := by
  induction l with
  | nil => simp
  | cons a rest ih =>
    by_cases hp : p a = true
    · simp [List.filter_cons, hp, hpq a hp, Nat.succ_le_succ ih]
    · by_cases hq : q a = true
      · simp only [List.filter_cons, hq, if_true]
        simp only [Bool.not_eq_true] at hp
        simp only [hp]
        exact Nat.le_succ_of_le ih
      · simp only [Bool.not_eq_true] at hp hq
        simp [List.filter_cons, hp, hq, ih]

theorem filter_length_lt {α : Type} [DecidableEq α] (p q : α → Bool)
    (hpq : ∀ a, p a = true → q a = true) (l : List α) (x : α)
    (hx : x ∈ l) (hpx : p x = false) (hqx : q x = true) :
    (l.filter p).length < (l.filter q).length := by
  induction l with
  | nil => simp at hx
  | cons a rest ih =>
    rcases List.mem_cons.mp hx with rfl | hmem
    · simp only [List.filter_cons, hpx, hqx, if_true]
      exact Nat.lt_succ_of_le (filter_length_le p q hpq rest)
    · by_cases hp : p a = true
      · simp [List.filter_cons, hp, hpq a hp, Nat.succ_lt_succ (ih hmem)]
      · by_cases hq : q a = true
        · simp only [List.filter_cons, hq, if_true]
          simp only [Bool.not_eq_true] at hp
          simp only [hp]
          exact Nat.lt_succ_of_lt (ih hmem)
        · simp only [Bool.not_eq_true] at hp hq
          simp [List.filter_cons, hp, hq, ih hmem]

/-- Visiting a key of the table strictly shrinks the count of unvisited
keys: the loop variant of resolveReexportChains. -/
theorem countNewKeys_lt {m : List (String × String)} {cur next : String}
    {visited : List String}
    (hlook : mLookup m cur = some next) (hvis : cur ∉ visited) :
    countNewKeys m (cur :: visited) < countNewKeys m visited := by
  refine filter_length_lt _ _ ?_ _ cur ?_ ?_ ?_
  · intro a ha
    simp only [decide_eq_true_eq, List.mem_cons, not_or] at ha ⊢
    exact ha.2
  · exact List.mem_dedup.mpr (mLookup_mem_keys hlook)
  · simp
  · simp [hvis]

theorem countNewKeys_le (m : List (String × String)) (visited : List String) :
    countNewKeys m visited ≤ m.length := by
  calc ((m.map Prod.fst).dedup.filter (fun k => k ∉ visited)).length
      ≤ (m.map Prod.fst).dedup.length := List.length_filter_le _ _
    _ ≤ (m.map Prod.fst).length := (List.dedup_sublist _).length_le
    _ = m.length := List.length_map _ _

/-- The chain-following loop is fuel-insensitive once the fuel exceeds
the number of unvisited keys: the loop terminates on its own. -/
theorem chaseAux_stable (m : List (String × String)) :
    ∀ fuel₁ fuel₂ cur visited, countNewKeys m visited < fuel₁ →
      countNewKeys m visited < fuel₂ →
      chaseAux m fuel₁ cur visited = chaseAux m fuel₂ cur visited := by
  intro fuel₁
  induction fuel₁ with
  | zero => intro fuel₂ cur visited h₁; exact absurd h₁ (Nat.not_lt_zero _)
  | succ f ih =>
    intro fuel₂ cur visited h₁ h₂
    match fuel₂, h₂ with
    | g + 1, h₂ =>
      simp only [chaseAux]
      cases hlook : mLookup m cur with
      | none => rfl
      | some next =>
        by_cases hvis : cur ∈ visited
        · simp [hvis]
        · simp only [hvis, if_false]
          have hlt := countNewKeys_lt hlook hvis
          exact ih g next (cur :: visited)
            (Nat.lt_of_lt_of_le hlt (Nat.lt_succ_iff.mp h₁))
            (Nat.lt_of_lt_of_le hlt (Nat.lt_succ_iff.mp h₂))

/-- When the chain from cur reaches a non-key id in n steps without
revisiting anything, the loop returns that id. -/
theorem chaseAux_follows (m : List (String × String)) :
    ∀ (n : Nat) (c : Nat → String) (visited : List String) (fuel : Nat),
      countNewKeys m visited < fuel →
      (∀ i, i < n → mLookup m (c i) = some (c (i + 1))) →
      mLookup m (c n) = none →
      (∀ i, i < n → c i ∉ visited) →
      (∀ i j, i < j → j < n → c i ≠ c j) →
      chaseAux m fuel (c 0) visited = c n := by
  intro n
  induction n with
  | zero =>
    intro c visited fuel hfuel _ hterm _ _
    match fuel, hfuel with
    | f + 1, _ => simp [chaseAux, hterm]
  | succ n ih =>
    intro c visited fuel hfuel hstep hterm havoid hdist
    match fuel, hfuel with
    | f + 1, hfuel =>
      have h0 : mLookup m (c 0) = some (c 1) := hstep 0 (Nat.succ_pos n)
      have hv0 : c 0 ∉ visited := havoid 0 (Nat.succ_pos n)
      simp only [chaseAux, h0, hv0, if_false]
      have := ih (fun i => c (i + 1)) (c 0 :: visited) f
        (Nat.lt_of_lt_of_le (countNewKeys_lt h0 hv0) (Nat.lt_succ_iff.mp hfuel))
        (fun i hi => hstep (i + 1) (Nat.succ_lt_succ hi))
        hterm
        (fun i hi => by
          intro hmem
          rcases List.mem_cons.mp hmem with heq | hmem
          · exact hdist 0 (i + 1) (Nat.succ_pos i) (Nat.succ_lt_succ hi) heq.symm
          · exact havoid (i + 1) (Nat.succ_lt_succ hi) hmem)
        (fun i j hij hj =>
          hdist (i + 1) (j + 1) (Nat.succ_lt_succ hij) (Nat.succ_lt_succ hj))
      exact this

/-- Lookup of a mapped association list at a key present once. -/
theorem mLookup_map_of_mem {m : List (String × String)}
    (g : String × String → String) {s t : String}
    (hnodup : (m.map Prod.fst).Nodup) (hmem : (s, t) ∈ m) :
    mLookup (m.map (fun p => (p.1, g p))) s = some (g (s, t)) := by
  induction m with
  | nil => simp at hmem
  | cons p rest ih =>
    simp only [List.map_cons, List.nodup_cons] at hnodup
    rcases List.mem_cons.mp hmem with heq | hmem
    · simp [mLookup, ← heq]
    · have hne : p.1 ≠ s := by
        intro he
        exact hnodup.1 (he ▸ (List.mem_map.mpr ⟨(s, t), hmem, rfl⟩))
      simp only [List.map_cons, mLookup, hne, if_false]
      exact ih hnodup.2 hmem

/-- C3: the chain-following loop of resolveReexportChains terminates on
every entry (its result is stable once the fuel reaches the table size
plus one), and an entry whose chain reaches a non-key target without
revisiting any id resolves to that terminal target. -/
theorem resolveReexportChains_correct :
    (∀ (m : List (String × String)) (t s : String) (extra : Nat),
      chaseAux m (m.length + 1) t [s] =
        chaseAux m (m.length + 1 + extra) t [s]) ∧
    (∀ (m : List (String × String)) (s t : String) (n : Nat) (c : Nat → String),
      (m.map Prod.fst).Nodup → (s, t) ∈ m → c 0 = t →
      (∀ i, i < n → mLookup m (c i) = some (c (i + 1))) →
      mLookup m (c n) = none →
      (∀ i, i < n → c i ≠ s) →
      (∀ i j, i < j → j < n → c i ≠ c j) →
      mLookup (resolveReexportChains m) s = some (c n)) := by
  constructor
  · intro m t s extra
    have hb : countNewKeys m [s] ≤ m.length := countNewKeys_le m [s]
    exact chaseAux_stable m (m.length + 1) (m.length + 1 + extra) t [s]
      (Nat.lt_succ_of_le hb)
      (Nat.lt_of_le_of_lt hb (by omega))
  · intro m s t n c hnodup hmem hc0 hstep hterm havoid hdist
    have hchase : chaseAux m (m.length + 1) t [s] = c n := by
      rw [← hc0]
      exact chaseAux_follows m n c [s] (m.length + 1)
        (Nat.lt_succ_of_le (countNewKeys_le m [s]))
        hstep hterm
        (fun i hi => by simp [havoid i hi])
        hdist
    have := mLookup_map_of_mem
      (fun p => chaseAux m (m.length + 1) p.2 [p.1]) hnodup hmem
    rw [resolveReexportChains, this]
    simp [hchase]

/-- Witness for resolveReexportChains_correct: the two-step chain
A#x -> B#x -> C#x resolves to the terminal C#x. -/
theorem resolveReexportChains_correct_witness :
    mLookup (resolveReexportChains [("A#x", "B#x"), ("B#x", "C#x")]) "A#x" =
      some "C#x" := by
  have h := resolveReexportChains_correct.2
    [("A#x", "B#x"), ("B#x", "C#x")] "A#x" "B#x" 1
    (fun i => if i = 0 then "B#x" else "C#x")
    (by decide) (by decide) (by decide)
    (by
      intro i hi
      have : i = 0 := Nat.lt_one_iff.mp hi
      subst this
      decide)
    (by decide)
    (by
      intro i hi
      have : i = 0 := Nat.lt_one_iff.mp hi
      subst this
      decide)
    (by
      intro i j hij hj
      exact absurd hj (by omega))
  simpa using h

/-- The resolveTarget helper of processImport (also used when the
file import maps are built): look the tentative id up in the collapsed table
and fall back to the id itself. -/
def resolveTarget (rx : List (String × String)) (t : String) : String :=
  (mLookup rx t).getD t

theorem resolveReexportChains_keys (m : List (String × String)) :
    (resolveReexportChains m).map Prod.fst = m.map Prod.fst := by
  simp [resolveReexportChains, List.map_map, Function.comp]

/-- C4: resolving an id that is not a key of the re-export table returns
the id itself, and hence applying the resolution twice agrees with
applying it once on such ids. -/
theorem resolveTarget_idempotent (m : List (String × String)) (x : String)
    (h : x ∉ m.map Prod.fst) :
    resolveTarget (resolveReexportChains m) x = x ∧
    resolveTarget (resolveReexportChains m)
        (resolveTarget (resolveReexportChains m) x) =
      resolveTarget (resolveReexportChains m) x := by
  have hkeys : x ∉ (resolveReexportChains m).map Prod.fst := by
    rw [resolveReexportChains_keys]; exact h
  have hnone := mLookup_eq_none hkeys
  constructor
  · simp [resolveTarget, hnone]
  · simp [resolveTarget, hnone]

/-- Witness for resolveTarget_idempotent: the id b#g is not re-exported
by the one-entry table, so it resolves to itself. -/
theorem resolveTarget_idempotent_witness :
    resolveTarget (resolveReexportChains [("a#f", "b#f")]) "b#g" = "b#g" ∧
    resolveTarget (resolveReexportChains [("a#f", "b#f")])
        (resolveTarget (resolveReexportChains [("a#f", "b#f")]) "b#g") =
      resolveTarget (resolveReexportChains [("a#f", "b#f")]) "b#g" :=
  resolveTarget_idempotent [("a#f", "b#f")] "b#g" (by decide)

/-- A named import or export specifier: the optional property name (the
original name before an alias) and the bound name. -/
structure Specifier where
  propertyName : Option String
  name : String
  deriving Repr, DecidableEq

/-- The named bindings of an import clause: absent, a list of
named import specifiers, or a namespace import with its alias. -/
inductive NamedBindings where
  | noBinds : NamedBindings
  | named (elements : List Specifier) : NamedBindings
  | star (nsAlias : String) : NamedBindings
  deriving Repr, DecidableEq

/-- The import clause of an import declaration: the optional default
binding name and the named bindings. -/
structure ImportClause where
  defaultName : Option String
  bindings : NamedBindings
  deriving Repr, DecidableEq

/-- processImport: emit import edges for one import declaration whose
specifier resolved to targetModuleId. Named imports resolve each
tentative target through the collapsed re-export table; a namespace
binding yields a module-level edge and returns early; a default import
resolves targetModuleId#default; an import with no bindings at all is a
side-effect import and yields a module-level edge. -/
def processImport (rx : List (String × String)) (moduleId targetModuleId : String)
    (clause : Option ImportClause) : List Edge :=
  match clause with
  | none => [{ source := moduleId, target := targetModuleId, type := "import" }]
  | some c =>
    match c.bindings with
    | NamedBindings.star _ =>
        [{ source := moduleId, target := targetModuleId, type := "import" }]
    | NamedBindings.noBinds =>
        match c.defaultName with
        | some _ =>
            [{ source := moduleId,
               target := resolveTarget rx (targetModuleId ++ "#default"),
               type := "import" }]
        | none =>
            [{ source := moduleId, target := targetModuleId, type := "import" }]
    | NamedBindings.named elements =>
        let namedEdges := elements.map (fun el =>
          { source := moduleId,
            target := resolveTarget rx
              (targetModuleId ++ "#" ++ orElseStr el.propertyName el.name),
            type := "import" : Edge })
        let defaultEdges : List Edge :=
          match c.defaultName with
          | some _ =>
              [{ source := moduleId,
                 target := resolveTarget rx (targetModuleId ++ "#default"),
                 type := "import" }]
          | none => []
        if elements.length + defaultEdges.length = 0 then
          [{ source := moduleId, target := targetModuleId, type := "import" }]
        else namedEdges ++ defaultEdges

/-- One export-from declaration as consumed by collectReexports: the
resolved target module id and the named export specifiers. -/
structure ReexportDecl where
  targetModuleId : String
  elements : List Specifier
  deriving Repr, DecidableEq

/-- collectReexports for one file: record
moduleId#exportedName -> targetModuleId#originalName for every named
export-from specifier, consing so that later Map.set calls win. -/
def collectReexports (moduleId : String) (decls : List ReexportDecl)
    (acc : List (String × String)) : List (String × String) :=
  match decls with
  | [] => acc
  | d :: rest =>
      collectReexports moduleId rest
        (d.elements.foldl (fun acc el =>
          (moduleId ++ "#" ++ el.name,
           d.targetModuleId ++ "#" ++ orElseStr el.propertyName el.name) :: acc) acc)

/-- The first pass of parse: collect re-export mappings from all files
into one shared table. -/
def collectAllReexports :
    List (String × List ReexportDecl) → List (String × String) →
    List (String × String)
  | [], acc => acc
  | f :: rest, acc => collectAllReexports rest (collectReexports f.1 f.2 acc)

/-- C2: an import edge for a named import of symbol A from resolved
module M targets the collapsed re-export table entry for M#A when that
key is present and M#A otherwise; in particular, importing f from a
barrel module C that re-exports f from module A yields an edge to A#f,
not C#f. -/
theorem processImport_named_resolution :
    (∀ (rx : List (String × String)) (moduleId M : String)
       (defaultName : Option String) (elements : List Specifier) (el : Specifier),
      el ∈ elements →
      ((∀ v, mLookup rx (M ++ "#" ++ orElseStr el.propertyName el.name) = some v →
          ({ source := moduleId, target := v, type := "import" } : Edge) ∈
            processImport rx moduleId M
              (some ⟨defaultName, NamedBindings.named elements⟩)) ∧
       (mLookup rx (M ++ "#" ++ orElseStr el.propertyName el.name) = none →
          ({ source := moduleId,
             target := M ++ "#" ++ orElseStr el.propertyName el.name,
             type := "import" } : Edge) ∈
            processImport rx moduleId M
              (some ⟨defaultName, NamedBindings.named elements⟩)))) ∧
    processImport
        (resolveReexportChains
          (collectAllReexports [("C", [⟨"A", [⟨none, "f"⟩]⟩])] []))
        "D" "C" (some ⟨none, NamedBindings.named [⟨none, "f"⟩]⟩) =
      [{ source := "D", target := "A#f", type := "import" }] := by
  constructor
  · intro rx moduleId M defaultName elements el hel
    have hne : ¬ elements.length +
        (match defaultName with
         | some _ =>
             [({ source := moduleId,
                 target := resolveTarget rx (M ++ "#default"),
                 type := "import" } : Edge)]
         | none => ([] : List Edge)).length = 0 := by
      have : 0 < elements.length := List.length_pos.mpr (List.ne_nil_of_mem hel)
      omega
    constructor
    · intro v hv
      simp only [processImport, hne, if_false, List.mem_append]
      left
      refine List.mem_map.mpr ⟨el, hel, ?_⟩
      simp [resolveTarget, hv]
    · intro hv
      simp only [processImport, hne, if_false, List.mem_append]
      left
      refine List.mem_map.mpr ⟨el, hel, ?_⟩
      simp [resolveTarget, hv]
  · decide

/-- Witness for processImport_named_resolution: a concrete named import
of f from module C through a one-entry collapsed table. -/
theorem processImport_named_resolution_witness :
    ({ source := "D", target := "A#f", type := "import" } : Edge) ∈
      processImport [("C#f", "A#f")] "D" "C"
        (some ⟨none, NamedBindings.named [⟨none, "f"⟩]⟩) :=
  (processImport_named_resolution.1 [("C#f", "A#f")] "D" "C" none
    [⟨none, "f"⟩] ⟨none, "f"⟩ (by decide)).1 "A#f" (by decide)

/-- One import declaration as consumed by buildImportMap: the resolved
source module id and the import clause. -/
structure ImportDecl where
  sourceModuleId : String
  clause : Option ImportClause
  deriving Repr, DecidableEq

/-- The bindings one import clause adds to the import map: a named
element binds its local name to the re-export-resolved tentative id, a
a default import binds its local name to the resolved default id.
Namespace imports add no per-symbol binding. Bindings are consed in
Map.set order so that later ones win on lookup. -/
def importClauseBindings (rx : List (String × String)) (sourceModuleId : String)
    (c : ImportClause) (acc : List (String × String)) : List (String × String) :=
  let acc1 :=
    match c.bindings with
    | NamedBindings.named elements =>
        elements.foldl (fun acc el =>
          (el.name,
           resolveTarget rx
             (sourceModuleId ++ "#" ++ orElseStr el.propertyName el.name)) :: acc) acc
    | _ => acc
  match c.defaultName with
  | some localName =>
      (localName, resolveTarget rx (sourceModuleId ++ "#default")) :: acc1
  | none => acc1

/-- buildImportMap: fold the bindings of every import declaration of the
file into one local-name-to-global-id map. -/
def buildImportMap (rx : List (String × String)) :
    List ImportDecl → List (String × String) → List (String × String)
  | [], acc => acc
  | d :: rest, acc =>
      match d.clause with
      | none => buildImportMap rx rest acc
      | some c =>
          buildImportMap rx rest (importClauseBindings rx d.sourceModuleId c acc)

/-- The heritage keyword of a heritage clause. -/
inductive HeritageToken where
  | extendsKeyword : HeritageToken
  | implementsKeyword : HeritageToken
  deriving Repr, DecidableEq

/-- The edge kind string chosen by processHeritageClause for a token. -/
def heritageTokenType : HeritageToken → String
  | HeritageToken.extendsKeyword => "extends"
  | HeritageToken.implementsKeyword => "implements"

/-- One heritage clause: the keyword and its type expressions, where a
plain identifier is some name and any other expression is none and is
skipped by the extractor. -/
structure HeritageClause where
  token : HeritageToken
  types : List (Option String)
  deriving Repr, DecidableEq

/-- processHeritageClause: for every plain-identifier type expression,
emit an edge from the class to the import-map binding of the name,
falling back to moduleId#name; the JavaScript || fallback is modelled by
orElseStr. -/
def processHeritageClause (classId moduleId : String)
    (importMap : List (String × String)) (clauses : List HeritageClause) :
    List Edge :=
  clauses.flatMap (fun cl =>
    (cl.types.filterMap id).map (fun symbolName =>
      { source := classId,
        target := orElseStr (mLookup importMap symbolName)
          (moduleId ++ "#" ++ symbolName),
        type := heritageTokenType cl.token }))

theorem resolved_id_ne_empty (a b : String) : a ++ "#" ++ b ≠ "" := by
  intro h
  have hlen := congrArg String.length h
  rw [String.length_append, String.length_append] at hlen
  have h1 : ("#" : String).length = 1 := rfl
  have h2 : ("" : String).length = 0 := rfl
  omega

theorem default_id_ne_empty (a : String) : a ++ "#default" ≠ "" := by
  intro h
  have hlen := congrArg String.length h
  rw [String.length_append] at hlen
  have h1 : ("#default" : String).length = 8 := rfl
  have h2 : ("" : String).length = 0 := rfl
  omega

theorem resolveTarget_ne_empty {rx : List (String × String)} {t : String}
    (hrx : ∀ v ∈ rx.map Prod.snd, v ≠ "") (ht : t ≠ "") :
    resolveTarget rx t ≠ "" := by
  cases hlook : mLookup rx t with
  | none => simpa [resolveTarget, hlook] using ht
  | some v =>
    have := hrx v (mLookup_mem_values hlook)
    simpa [resolveTarget, hlook] using this

/-- The chain-following loop only ever returns its starting id or a
value of the table. -/
theorem chaseAux_mem (m : List (String × String)) :
    ∀ (fuel : Nat) (cur : String) (visited : List String),
      chaseAux m fuel cur visited ∈ cur :: m.map Prod.snd := by
  intro fuel
  induction fuel with
  | zero => intro cur visited; simp [chaseAux]
  | succ f ih =>
    intro cur visited
    simp only [chaseAux]
    cases hlook : mLookup m cur with
    | none => simp
    | some next =>
      by_cases hvis : cur ∈ visited
      · simp [hvis]
      · simp only [hvis, if_false]
        rcases List.mem_cons.mp (ih next (cur :: visited)) with heq | hmem
        · rw [heq]
          exact List.mem_cons_of_mem _ (mLookup_mem_values hlook)
        · exact List.mem_cons_of_mem _ hmem

theorem resolveReexportChains_values {m : List (String × String)} :
    ∀ q ∈ resolveReexportChains m, q.2 ∈ m.map Prod.snd := by
  intro q hq
  rcases List.mem_map.mp hq with ⟨p, hp, hpe⟩
  have hq2 : q.2 = chaseAux m (m.length + 1) p.2 [p.1] := by rw [← hpe]
  rcases List.mem_cons.mp (chaseAux_mem m (m.length + 1) p.2 [p.1]) with heq | hmem
  · rw [hq2, heq]
    exact List.mem_map.mpr ⟨p, hp, rfl⟩
  · rw [hq2]
    exact hmem

theorem collectReexports_values {moduleId : String} :
    ∀ (decls : List ReexportDecl) (acc : List (String × String)),
      (∀ p ∈ acc, p.2 ≠ "") →
      ∀ p ∈ collectReexports moduleId decls acc, p.2 ≠ "" := by
  intro decls
  induction decls with
  | nil => intro acc hacc p hp; exact hacc p hp
  | cons d rest ih =>
    intro acc hacc p hp
    refine ih _ ?_ p hp
    have hfold : ∀ (els : List Specifier) (acc0 : List (String × String)),
        (∀ q ∈ acc0, q.2 ≠ "") →
        ∀ q ∈ els.foldl (fun (acc : List (String × String)) (el : Specifier) =>
            (moduleId ++ "#" ++ el.name,
             d.targetModuleId ++ "#" ++ orElseStr el.propertyName el.name) :: acc)
          acc0, q.2 ≠ "" := by
      intro els
      induction els with
      | nil => intro acc0 h q hq; exact h q hq
      | cons el els2 ih2 =>
        intro acc0 h q hq
        refine ih2 _ ?_ q hq
        intro r hr
        rcases List.mem_cons.mp hr with rfl | hr
        · exact resolved_id_ne_empty _ _
        · exact h r hr
    exact hfold d.elements acc hacc

theorem collectAllReexports_values :
    ∀ (rfiles : List (String × List ReexportDecl)) (acc : List (String × String)),
      (∀ p ∈ acc, p.2 ≠ "") →
      ∀ p ∈ collectAllReexports rfiles acc, p.2 ≠ "" := by
  intro rfiles
  induction rfiles with
  | nil => intro acc hacc p hp; exact hacc p hp
  | cons f rest ih =>
    intro acc hacc p hp
    exact ih _ (collectReexports_values f.2 acc hacc) p hp

theorem importClauseBindings_values {rx : List (String × String)}
    {sourceModuleId : String} {c : ImportClause} {acc : List (String × String)}
    (hrx : ∀ v ∈ rx.map Prod.snd, v ≠ "") (hacc : ∀ p ∈ acc, p.2 ≠ "") :
    ∀ p ∈ importClauseBindings rx sourceModuleId c acc, p.2 ≠ "" := by
  have hfold : ∀ (els : List Specifier) (acc0 : List (String × String)),
      (∀ q ∈ acc0, q.2 ≠ "") →
      ∀ q ∈ els.foldl (fun (acc : List (String × String)) (el : Specifier) =>
          (el.name,
           resolveTarget rx
             (sourceModuleId ++ "#" ++ orElseStr el.propertyName el.name)) :: acc)
        acc0, q.2 ≠ "" := by
    intro els
    induction els with
    | nil => intro acc0 h q hq; exact h q hq
    | cons el els2 ih2 =>
      intro acc0 h q hq
      refine ih2 _ ?_ q hq
      intro r hr
      rcases List.mem_cons.mp hr with rfl | hr
      · exact resolveTarget_ne_empty hrx (resolved_id_ne_empty _ _)
      · exact h r hr
  intro p hp
  simp only [importClauseBindings] at hp
  have hacc1 : ∀ q ∈ (match c.bindings with
      | NamedBindings.named elements =>
          elements.foldl (fun (acc : List (String × String)) (el : Specifier) =>
            (el.name,
             resolveTarget rx
               (sourceModuleId ++ "#" ++ orElseStr el.propertyName el.name)) :: acc) acc
      | _ => acc), q.2 ≠ "" := by
    cases c.bindings with
    | named elements => exact hfold elements acc hacc
    | noBinds => exact hacc
    | star a => exact hacc
  cases hdef : c.defaultName with
  | some localName =>
    rw [hdef] at hp
    rcases List.mem_cons.mp hp with rfl | hp
    · exact resolveTarget_ne_empty hrx (default_id_ne_empty _)
    · exact hacc1 p hp
  | none =>
    rw [hdef] at hp
    exact hacc1 p hp

theorem buildImportMap_values {rx : List (String × String)}
    (hrx : ∀ v ∈ rx.map Prod.snd, v ≠ "") :
    ∀ (decls : List ImportDecl) (acc : List (String × String)),
      (∀ p ∈ acc, p.2 ≠ "") →
      ∀ p ∈ buildImportMap rx decls acc, p.2 ≠ "" := by
  intro decls
  induction decls with
  | nil => intro acc hacc p hp; exact hacc p hp
  | cons d rest ih =>
    intro acc hacc p hp
    cases hcl : d.clause with
    | none =>
      rw [buildImportMap, hcl] at hp
      exact ih acc hacc p hp
    | some c =>
      rw [buildImportMap, hcl] at hp
      exact ih _ (importClauseBindings_values hrx hacc) p hp

/-- The import map a file sees in the second parse pass: re-export
tables of all files are collected, chains are collapsed, and the
collapsed table resolves the import declarations of the file. -/
def pipelineImportMap (rfiles : List (String × List ReexportDecl))
    (idecls : List ImportDecl) : List (String × String) :=
  buildImportMap (resolveReexportChains (collectAllReexports rfiles [])) idecls []

/-- C5: a heritage clause naming a plain identifier N on class C in
module M produces an edge from C to the import-map binding of N when N
is bound in the import map built for the file, and to M#N exactly when
N is not bound there. -/
theorem processHeritageClause_resolution
    (rfiles : List (String × List ReexportDecl)) (idecls : List ImportDecl)
    (classId moduleId N : String) (tok : HeritageToken) :
    (∀ v, mLookup (pipelineImportMap rfiles idecls) N = some v →
       processHeritageClause classId moduleId (pipelineImportMap rfiles idecls)
           [⟨tok, [some N]⟩] =
         [{ source := classId, target := v, type := heritageTokenType tok }]) ∧
    (mLookup (pipelineImportMap rfiles idecls) N = none →
       processHeritageClause classId moduleId (pipelineImportMap rfiles idecls)
           [⟨tok, [some N]⟩] =
         [{ source := classId, target := moduleId ++ "#" ++ N,
            type := heritageTokenType tok }]) := by
  have hrxvals : ∀ v ∈ (resolveReexportChains
      (collectAllReexports rfiles [])).map Prod.snd, v ≠ "" := by
    intro v hv
    rcases List.mem_map.mp hv with ⟨q, hq, hqe⟩
    have hmem := resolveReexportChains_values q hq
    rcases List.mem_map.mp hmem with ⟨p, hp, hpe⟩
    have hne := collectAllReexports_values rfiles [] (by simp) p hp
    rw [hpe, hqe] at hne
    exact hne
  have hvals : ∀ v, mLookup (pipelineImportMap rfiles idecls) N = some v →
      v ≠ "" := by
    intro v hv
    have hmem := mLookup_mem_values hv
    rcases List.mem_map.mp hmem with ⟨p, hp, hpe⟩
    have hne := buildImportMap_values hrxvals idecls [] (by simp) p hp
    rw [hpe] at hne
    exact hne
  constructor
  · intro v hv
    have hne := hvals v hv
    simp [processHeritageClause, hv, orElseStr, hne]
  · intro hv
    simp [processHeritageClause, hv, orElseStr]

/-- Witness for processHeritageClause_resolution: class M#C extends
Base where Base is imported from module B, so the edge targets B#Base
rather than M#Base. -/
theorem processHeritageClause_resolution_witness :
    processHeritageClause "M#C" "M"
        (pipelineImportMap []
          [⟨"B", some ⟨none, NamedBindings.named [⟨none, "Base"⟩]⟩⟩])
        [⟨HeritageToken.extendsKeyword, [some "Base"]⟩] =
      [{ source := "M#C", target := "B#Base", type := "extends" }] :=
  (processHeritageClause_resolution []
    [⟨"B", some ⟨none, NamedBindings.named [⟨none, "Base"⟩]⟩⟩]
    "M#C" "M" "Base" HeritageToken.extendsKeyword).1 "B#Base" (by decide)

/-- The syntactic kind of a class member as the extractor
distinguishes them: method declarations, property declarations, and any
other class element (constructors, get and set accessors, index
signatures), which the member pass never matches. -/
inductive MemberKind where
  | methodDecl : MemberKind
  | propertyDecl : MemberKind
  | otherMember : MemberKind
  deriving Repr, DecidableEq

/-- One class member: its kind, whether its name is a plain identifier
(false for string-literal and computed names), the name text, and the
private and protected modifier flags. -/
structure ClassMember where
  kind : MemberKind
  nameIsIdentifier : Bool
  name : String
  isPrivate : Bool
  isProtected : Bool
  deriving Repr, DecidableEq

/-- processClassMembers: skip members with a private or protected
modifier; emit a method node for a method declaration with an
identifier name and a field node for a property declaration with an
identifier name, each with id classId.name. -/
def processClassMembers (classId : String) (members : List ClassMember) :
    List Node :=
  members.filterMap (fun m =>
    if m.isPrivate || m.isProtected then none
    else
      match m.kind with
      | MemberKind.methodDecl =>
          if m.nameIsIdentifier then
            some { id := classId ++ "." ++ m.name, label := m.name,
                   type := "method" }
          else none
      | MemberKind.propertyDecl =>
          if m.nameIsIdentifier then
            some { id := classId ++ "." ++ m.name, label := m.name,
                   type := "field" }
          else none
      | MemberKind.otherMember => none)

/-- The class-to-member edges pushed in parseSourceFile for the member
nodes: class defines this member, emitted with the export kind. -/
def classMemberEdges (classId : String) (members : List ClassMember) :
    List Edge :=
  (processClassMembers classId members).map (fun n =>
    { source := classId, target := n.id, type := "export" })

/-- Counterexample to C6 as stated: a public get accessor named x and a
public method with the string-literal name foo are both public class
members, yet neither produces a node. -/
theorem processClassMembers_public_counterexample :
    (∀ m ∈ [(⟨MemberKind.otherMember, true, "x", false, false⟩ : ClassMember),
            ⟨MemberKind.methodDecl, false, "foo", false, false⟩],
      m.isPrivate = false ∧ m.isProtected = false) ∧
    processClassMembers "M#C"
        [⟨MemberKind.otherMember, true, "x", false, false⟩,
         ⟨MemberKind.methodDecl, false, "foo", false, false⟩] = [] := by
  decide

theorem filterMap_filter_of_none {α β : Type} (f : α → Option β) (p : α → Bool)
    (h : ∀ a, p a = false → f a = none) :
    ∀ l : List α, l.filterMap f = (l.filter p).filterMap f := by
  intro l
  induction l with
  | nil => rfl
  | cons a rest ih =>
    by_cases hp : p a = true
    · cases hfa : f a with
      | none => simp [List.filter_cons, hp, List.filterMap_cons, hfa, ih]
      | some b => simp [List.filter_cons, hp, List.filterMap_cons, hfa, ih]
    · have hp₂ : p a = false := by simpa using hp
      simp [List.filter_cons, hp₂, List.filterMap_cons, h a hp₂, ih]

/-- C6 (amended): private or protected members contribute nothing to the
member pass, and every public method or property declaration whose name
is a plain identifier produces a node with id classId.name, linked from
the class by an export (defines) edge; other members produce none. -/
theorem processClassMembers_visibility (classId : String)
    (members : List ClassMember) :
    processClassMembers classId members =
      processClassMembers classId
        (members.filter (fun m => !(m.isPrivate || m.isProtected))) ∧
    (∀ m ∈ members, m.isPrivate = false → m.isProtected = false →
      m.nameIsIdentifier = true →
      (m.kind = MemberKind.methodDecl →
        ({ id := classId ++ "." ++ m.name, label := m.name,
           type := "method" } : Node) ∈ processClassMembers classId members ∧
        ({ source := classId, target := classId ++ "." ++ m.name,
           type := "export" } : Edge) ∈ classMemberEdges classId members) ∧
      (m.kind = MemberKind.propertyDecl →
        ({ id := classId ++ "." ++ m.name, label := m.name,
           type := "field" } : Node) ∈ processClassMembers classId members ∧
        ({ source := classId, target := classId ++ "." ++ m.name,
           type := "export" } : Edge) ∈ classMemberEdges classId members)) := by
  constructor
  · simp only [processClassMembers]
    refine filterMap_filter_of_none _ _ (fun a ha => ?_) members
    have hb : (a.isPrivate || a.isProtected) = true := by
      revert ha
      cases a.isPrivate <;> cases a.isProtected <;> simp
    rw [if_pos hb]
  · intro m hm hpriv hprot hname
    have hmemNode : ∀ n, (if m.isPrivate || m.isProtected then none
        else
          match m.kind with
          | MemberKind.methodDecl =>
              if m.nameIsIdentifier then
                some { id := classId ++ "." ++ m.name, label := m.name,
                       type := "method" }
              else none
          | MemberKind.propertyDecl =>
              if m.nameIsIdentifier then
                some { id := classId ++ "." ++ m.name, label := m.name,
                       type := "field" }
              else none
          | MemberKind.otherMember => none) = some n →
        n ∈ processClassMembers classId members := by
      intro n hn
      exact List.mem_filterMap.mpr ⟨m, hm, hn⟩
    constructor
    · intro hkind
      have hnode := hmemNode
        { id := classId ++ "." ++ m.name, label := m.name, type := "method" }
        (by simp [hpriv, hprot, hkind, hname])
      refine ⟨hnode, ?_⟩
      exact List.mem_map.mpr ⟨_, hnode, rfl⟩
    · intro hkind
      have hnode := hmemNode
        { id := classId ++ "." ++ m.name, label := m.name, type := "field" }
        (by simp [hpriv, hprot, hkind, hname])
      refine ⟨hnode, ?_⟩
      exact List.mem_map.mpr ⟨_, hnode, rfl⟩

/-- Witness for processClassMembers_visibility: a class with one public
method run and one private field secret keeps only the method. -/
theorem processClassMembers_visibility_witness :
    ({ id := "M#C.run", label := "run", type := "method" } : Node) ∈
      processClassMembers "M#C"
        [⟨MemberKind.methodDecl, true, "run", false, false⟩,
         ⟨MemberKind.propertyDecl, true, "secret", true, false⟩] ∧
    ({ source := "M#C", target := "M#C.run", type := "export" } : Edge) ∈
      classMemberEdges "M#C"
        [⟨MemberKind.methodDecl, true, "run", false, false⟩,
         ⟨MemberKind.propertyDecl, true, "secret", true, false⟩] :=
  ((processClassMembers_visibility "M#C"
      [⟨MemberKind.methodDecl, true, "run", false, false⟩,
       ⟨MemberKind.propertyDecl, true, "secret", true, false⟩]).2
    ⟨MemberKind.methodDecl, true, "run", false, false⟩
    (by decide) rfl rfl rfl).1 rfl

/-- The dedup key used by addCallEdge: source ++ "->" ++ target. -/
def callEdgeKey (s t : String) : String := s ++ "->" ++ t

/-- The callEdgeKey as a function of the (source, target) pair. -/
def pairKey (p : String × String) : String := p.1 ++ "->" ++ p.2

/-- The addCallEdge accumulation loop of collectCallEdges: for every
candidate (sourceId, targetId) pair the AST traversal resolves - direct
calls, method calls, constructions and bare identifier references all
funnel here - push an edge of kind call unless the pair key was already
added or the pair is a self reference. Symbol resolution through the
TypeScript checker is abstracted as the candidate list, given in
traversal order. -/
def collectCallEdgesLoop :
    List (String × String) → List Edge → List String → List Edge
  | [], acc, _ => acc
  | (s, t) :: rest, acc, added =>
    if callEdgeKey s t ∉ added ∧ s ≠ t then
      collectCallEdgesLoop rest (acc ++ [{ source := s, target := t, type := "call" }])
        (callEdgeKey s t :: added)
    else collectCallEdgesLoop rest acc added

/-- collectCallEdges: run the candidate pairs through addCallEdge with
an empty edge list and an empty added set. -/
def collectCallEdges (cands : List (String × String)) : List Edge :=
  collectCallEdgesLoop cands [] []

theorem collectCallEdgesLoop_mem (cands : List (String × String)) :
    ∀ (acc : List Edge) (added : List String) (e : Edge),
      e ∈ collectCallEdgesLoop cands acc added →
      e ∈ acc ∨ ((e.source, e.target) ∈ cands ∧ e.type = "call" ∧
        e.source ≠ e.target) := by
  induction cands with
  | nil =>
    intro acc added e he
    exact Or.inl he
  | cons c rest ih =>
    intro acc added e he
    obtain ⟨s, t⟩ := c
    by_cases hc : callEdgeKey s t ∉ added ∧ s ≠ t
    · rw [collectCallEdgesLoop, if_pos hc] at he
      rcases ih _ _ e he with hacc | hnew
      · rcases List.mem_append.mp hacc with hacc | hsing
        · exact Or.inl hacc
        · rcases List.mem_singleton.mp hsing with rfl
          exact Or.inr ⟨List.mem_cons_self _ _, rfl, hc.2⟩
      · exact Or.inr ⟨List.mem_cons_of_mem _ hnew.1, hnew.2.1, hnew.2.2⟩
    · rw [collectCallEdgesLoop, if_neg hc] at he
      rcases ih _ _ e he with hacc | hnew
      · exact Or.inl hacc
      · exact Or.inr ⟨List.mem_cons_of_mem _ hnew.1, hnew.2.1, hnew.2.2⟩

theorem collectCallEdgesLoop_nodup (cands : List (String × String)) :
    ∀ (acc : List Edge) (added : List String),
      ((acc.map (fun e => callEdgeKey e.source e.target))).Nodup →
      (∀ e ∈ acc, callEdgeKey e.source e.target ∈ added) →
      ((collectCallEdgesLoop cands acc added).map
        (fun e => callEdgeKey e.source e.target)).Nodup := by
  induction cands with
  | nil =>
    intro acc added hnodup _
    exact hnodup
  | cons c rest ih =>
    intro acc added hnodup hsub
    obtain ⟨s, t⟩ := c
    by_cases hc : callEdgeKey s t ∉ added ∧ s ≠ t
    · rw [collectCallEdgesLoop, if_pos hc]
      refine ih _ _ ?_ ?_
      · rw [List.map_append, List.map_singleton]
        refine List.Nodup.append hnodup (List.nodup_singleton _) ?_
        intro k hk hks
        rcases List.mem_singleton.mp hks with rfl
        rcases List.mem_map.mp hk with ⟨e, he, hke⟩
        exact hc.1 (hke ▸ hsub e he)
      · intro e he
        rcases List.mem_append.mp he with hacc | hsing
        · exact List.mem_cons_of_mem _ (hsub e hacc)
        · rcases List.mem_singleton.mp hsing with rfl
          exact List.mem_cons_self _ _
    · rw [collectCallEdgesLoop, if_neg hc]
      exact ih _ _ hnodup hsub

/-- C7: every edge the call-edge pass returns has kind call, is not a
self edge, and comes from a candidate pair; and no two returned edges
share the same (source, target) pair, whatever the candidate sequence
was. -/
theorem collectCallEdges_invariants (cands : List (String × String)) :
    (∀ e ∈ collectCallEdges cands,
      e.type = "call" ∧ e.source ≠ e.target ∧ (e.source, e.target) ∈ cands) ∧
    ((collectCallEdges cands).map (fun e => (e.source, e.target))).Nodup := by
  constructor
  · intro e he
    rcases collectCallEdgesLoop_mem cands [] [] e he with hacc | hnew
    · simp at hacc
    · exact ⟨hnew.2.1, hnew.2.2, hnew.1⟩
  · have hkeys := collectCallEdgesLoop_nodup cands [] [] (by simp) (by simp)
    have hfac :
        (collectCallEdgesLoop cands [] []).map
            (fun e => callEdgeKey e.source e.target) =
          ((collectCallEdgesLoop cands [] []).map
            (fun e => (e.source, e.target))).map pairKey := by
      simp [List.map_map, Function.comp, pairKey, callEdgeKey]
    rw [hfac] at hkeys
    exact hkeys.of_map pairKey

/-- Witness for collectCallEdges_invariants: a candidate list with a
duplicate pair and a self reference yields one call edge. -/
theorem collectCallEdges_invariants_witness :
    (({ source := "a", target := "b", type := "call" } : Edge).type = "call" ∧
      ({ source := "a", target := "b", type := "call" } : Edge).source ≠
        ({ source := "a", target := "b", type := "call" } : Edge).target ∧
      (("a", "b") : String × String) ∈
        [("a", "b"), ("a", "b"), ("c", "c")]) ∧
    ((collectCallEdges [("a", "b"), ("a", "b"), ("c", "c")]).map
      (fun e => (e.source, e.target))).Nodup := by
  constructor
  · have hmem : ({ source := "a", target := "b", type := "call" } : Edge) ∈
        collectCallEdges [("a", "b"), ("a", "b"), ("c", "c")] := by decide
    exact (collectCallEdges_invariants
      [("a", "b"), ("a", "b"), ("c", "c")]).1 _ hmem
  · exact (collectCallEdges_invariants [("a", "b"), ("a", "b"), ("c", "c")]).2

/-- The observable state of the visualization server: the graph served
by the graph API and, per connected SSE client, the events written so
far. -/
structure ServerState where
  currentGraph : DependencyGraph
  sseClients : List (List String)

/-- The graph API handler: GET api/graph returns the current graph. -/
def serveGraph (st : ServerState) : DependencyGraph := st.currentGraph

/-- updateGraph from startServer: swap the published graph and write an
update event to every connected SSE client. -/
def updateGraph (st : ServerState) (g : DependencyGraph) : ServerState :=
  { currentGraph := g
    sseClients := st.sseClients.map (fun msgs => msgs ++ ["update"]) }

/-- One run of the watch-mode reanalyze callback: re-run the analysis
and publish the result through updateGraph; when the analysis throws,
the catch block logs the error and nothing else happens. The analysis
outcome is abstracted as an Except value, and the function returns the
new server state together with the operational log. -/
def reanalyze (result : Except String DependencyGraph) (st : ServerState)
    (log : List String) : ServerState × List String :=
  match result with
  | Except.ok g => (updateGraph st g, log)
  | Except.error e => (st, log ++ ["Error during re-analysis: " ++ e])

/-- C8: when reanalysis throws, the exception is consumed by the catch
block - reanalyze still returns a state, the served graph and the SSE
clients are exactly the previous ones (updateGraph was not invoked),
and the error is appended to the log. -/
theorem reanalyze_error_keeps_graph (st : ServerState) (log : List String)
    (e : String) :
    reanalyze (Except.error e) st log =
      (st, log ++ ["Error during re-analysis: " ++ e]) ∧
    serveGraph (reanalyze (Except.error e) st log).1 = serveGraph st ∧
    (reanalyze (Except.error e) st log).1.sseClients = st.sseClients := by
  exact ⟨rfl, rfl, rfl⟩

/-- The module-id computation of createModuleId works on the character
list of the path, so the anchored regex replacements become suffix
tests. A suffix test: the last pat.length characters equal pat. -/
def endsWith (s pat : List Char) : Prop :=
  s.drop (s.length - pat.length) = pat

instance endsWithDec (s pat : List Char) : Decidable (endsWith s pat) :=
  inferInstanceAs (Decidable (s.drop (s.length - pat.length) = pat))

/-- Remove the last pat.length characters. -/
def stripSuffix (s pat : List Char) : List Char :=
  s.take (s.length - pat.length)

/-- The first replace of createModuleId: strip one trailing source
extension, mirroring the anchored alternation over ts, tsx, js, jsx
(the four endings are mutually exclusive, so branch order is
immaterial). -/
def stripExtension (s : List Char) : List Char :=
  if endsWith s ".ts".data then stripSuffix s ".ts".data
  else if endsWith s ".tsx".data then stripSuffix s ".tsx".data
  else if endsWith s ".js".data then stripSuffix s ".js".data
  else if endsWith s ".jsx".data then stripSuffix s ".jsx".data
  else s

/-- The second replace of createModuleId: turn every backslash into a
slash. -/
def normalizeSlashes (s : List Char) : List Char :=
  s.map (fun c => if c = '\\' then '/' else c)

/-- The third replace of createModuleId: drop one trailing /index
segment. -/
def collapseIndex (s : List Char) : List Char :=
  if endsWith s "/index".data then stripSuffix s "/index".data else s

/-- createModuleId: strip the source extension, normalize backslashes
to slashes, collapse a trailing /index segment. -/
def createModuleId (s : List Char) : List Char :=
  collapseIndex (normalizeSlashes (stripExtension s))

theorem endsWith_append (q r : List Char) : endsWith (q ++ r) r := by
  unfold endsWith
  rw [List.length_append, Nat.add_sub_cancel, List.drop_left]

theorem stripSuffix_append (q r : List Char) : stripSuffix (q ++ r) r = q := by
  unfold stripSuffix
  rw [List.length_append, Nat.add_sub_cancel, List.take_left]

theorem stripExtension_ts (q : List Char) :
    stripExtension (q ++ ".ts".data) = q := by
  rw [stripExtension, if_pos (endsWith_append q _)]
  exact stripSuffix_append q _

/-- Counterexample to C9 as stated: for the path prefix a/index, the
module id of a/index/index.ts is a/index while the module id of
a/index.ts is a, so the claimed equality fails on prefixes that
themselves end in an index segment. -/
theorem createModuleId_index_counterexample :
    createModuleId ("a/index".data ++ "/index.ts".data) = "a/index".data ∧
    createModuleId ("a/index".data ++ ".ts".data) = "a".data ∧
    createModuleId ("a/index".data ++ "/index.ts".data) ≠
      createModuleId ("a/index".data ++ ".ts".data) := by
  decide

/-- C9 (amended): the module id is the path with one trailing source
extension stripped, backslashes normalized to slashes and one trailing
/index segment collapsed; consequently, for every path prefix p whose
normalized form does not itself end in /index, the module id of
p/index.ts equals the module id of p.ts, both being the normalized
prefix. -/
theorem createModuleId_index_collapse (p : List Char)
    (h : ¬ endsWith (normalizeSlashes p) "/index".data) :
    createModuleId (p ++ "/index.ts".data) = createModuleId (p ++ ".ts".data) ∧
    createModuleId (p ++ ".ts".data) = normalizeSlashes p := by
  have hsplit : p ++ "/index.ts".data = (p ++ "/index".data) ++ ".ts".data := by
    rw [List.append_assoc]
    congr 1
  have hleft : createModuleId (p ++ "/index.ts".data) = normalizeSlashes p := by
    rw [createModuleId, hsplit, stripExtension_ts]
    have hnorm : normalizeSlashes (p ++ "/index".data) =
        normalizeSlashes p ++ "/index".data := by
      rw [normalizeSlashes, List.map_append]
      congr 1
    rw [hnorm, collapseIndex, if_pos (endsWith_append _ _), stripSuffix_append]
  have hright : createModuleId (p ++ ".ts".data) = normalizeSlashes p := by
    rw [createModuleId, stripExtension_ts, collapseIndex, if_neg h]
  exact ⟨hleft.trans hright.symm, hright⟩

/-- Witness for createModuleId_index_collapse: the prefix src/utils, as
in the specification example. -/
theorem createModuleId_index_collapse_witness :
    createModuleId ("src/utils".data ++ "/index.ts".data) =
      createModuleId ("src/utils".data ++ ".ts".data) ∧
    createModuleId ("src/utils".data ++ ".ts".data) =
      normalizeSlashes "src/utils".data :=
  createModuleId_index_collapse "src/utils".data (by decide)

/-- EDGE_TYPES from the edge model: the kinds the Edge type admits. -/
def EDGE_TYPES : List String :=
  ["import", "export", "call", "reference", "extends", "implements"]

/-- One top-level statement of a file as the extraction visitor
dispatches on it: the statement forms that push edges. For declaration
forms the extractor may decline to produce a node (an unexported enum),
which suppresses the export edge; that outcome is carried as the
produced flag. -/
inductive Stmt where
  | importStmt (targetModuleId : String) (clause : Option ImportClause) : Stmt
  | exportStmt (targetModuleId : String) (hasExportClause : Bool) : Stmt
  | funcDecl (name : String) : Stmt
  | classDecl (name : String) (clauses : List HeritageClause)
      (members : List ClassMember) : Stmt
  | varStmt (names : List String) : Stmt
  | interfaceDecl (name : String) : Stmt
  | typeAliasDecl (name : String) : Stmt
  | enumDecl (name : String) (produced : Bool) : Stmt

/-- The edges the extraction visitor pushes for one statement: import
edges via processImport, a module-level export edge for a namespace
re-export, an export edge from the module to every declaration node,
and for classes additionally the heritage edges and the member defines
edges. -/
def stmtEdges (rx importMap : List (String × String)) (moduleId : String) :
    Stmt → List Edge
  | Stmt.importStmt target clause => processImport rx moduleId target clause
  | Stmt.exportStmt target hasClause =>
      if hasClause then []
      else [{ source := moduleId, target := target, type := "export" }]
  | Stmt.funcDecl name =>
      [{ source := moduleId, target := moduleId ++ "#" ++ name, type := "export" }]
  | Stmt.classDecl name clauses members =>
      { source := moduleId, target := moduleId ++ "#" ++ name,
        type := "export" } ::
        (processHeritageClause (moduleId ++ "#" ++ name) moduleId importMap
            clauses ++
          classMemberEdges (moduleId ++ "#" ++ name) members)
  | Stmt.varStmt names =>
      names.map (fun n =>
        { source := moduleId, target := moduleId ++ "#" ++ n, type := "export" })
  | Stmt.interfaceDecl name =>
      [{ source := moduleId, target := moduleId ++ "#" ++ name, type := "export" }]
  | Stmt.typeAliasDecl name =>
      [{ source := moduleId, target := moduleId ++ "#" ++ name, type := "export" }]
  | Stmt.enumDecl name produced =>
      if produced then
        [{ source := moduleId, target := moduleId ++ "#" ++ name,
           type := "export" }]
      else []

/-- The full edge list of one parsed file: the visitor edges of every
statement followed by the call edges appended in the third parse
pass. -/
def parsedFileEdges (rx importMap : List (String × String)) (moduleId : String)
    (stmts : List Stmt) (cands : List (String × String)) : List Edge :=
  stmts.flatMap (stmtEdges rx importMap moduleId) ++ collectCallEdges cands

theorem processImport_type (rx : List (String × String))
    (moduleId targetModuleId : String) (clause : Option ImportClause) :
    ∀ e ∈ processImport rx moduleId targetModuleId clause,
      e.type = "import" := by
  intro e he
  cases clause with
  | none =>
    simp only [processImport, List.mem_singleton] at he
    rw [he]
  | some c =>
    obtain ⟨dn, bnd⟩ := c
    cases bnd with
    | star a =>
      simp only [processImport, List.mem_singleton] at he
      rw [he]
    | noBinds =>
      cases dn with
      | some d =>
        simp only [processImport, List.mem_singleton] at he
        rw [he]
      | none =>
        simp only [processImport, List.mem_singleton] at he
        rw [he]
    | named els =>
      cases dn with
      | some d =>
        simp only [processImport, List.length_cons, List.length_nil,
          Nat.add_one_ne_zero, if_false, List.mem_append, List.mem_map,
          List.mem_singleton] at he
        rcases he with ⟨el, _, heq⟩ | he
        · rw [← heq]
        · rw [he]
      | none =>
        by_cases hlen : els = []
        · subst hlen
          simp [processImport] at he
          rw [he]
        · simp only [processImport, List.length_nil, Nat.add_zero,
            List.length_eq_zero, hlen, if_false, List.mem_append,
            List.mem_map, List.mem_nil_iff, or_false] at he
          rcases he with ⟨el, _, heq⟩
          rw [← heq]

theorem processHeritageClause_type (classId moduleId : String)
    (importMap : List (String × String)) (clauses : List HeritageClause) :
    ∀ e ∈ processHeritageClause classId moduleId importMap clauses,
      e.type = "extends" ∨ e.type = "implements" := by
  intro e he
  simp only [processHeritageClause, List.mem_flatMap] at he
  rcases he with ⟨cl, _, he⟩
  rcases List.mem_map.mp he with ⟨n, _, heq⟩
  rw [← heq]
  cases cl.token with
  | extendsKeyword => exact Or.inl rfl
  | implementsKeyword => exact Or.inr rfl

theorem classMemberEdges_type (classId : String) (members : List ClassMember) :
    ∀ e ∈ classMemberEdges classId members,
      e.source = classId ∧ e.type = "export" := by
  intro e he
  rcases List.mem_map.mp he with ⟨n, _, heq⟩
  rw [← heq]
  exact ⟨rfl, rfl⟩

theorem collectCallEdges_type (cands : List (String × String)) :
    ∀ e ∈ collectCallEdges cands, e.type = "call" := by
  intro e he
  rcases collectCallEdgesLoop_mem cands [] [] e he with hacc | hnew
  · simp at hacc
  · exact hnew.2.1

theorem stmtEdges_type (rx importMap : List (String × String))
    (moduleId : String) (st : Stmt) :
    ∀ e ∈ stmtEdges rx importMap moduleId st,
      e.type = "import" ∨ e.type = "export" ∨ e.type = "call" ∨
        e.type = "extends" ∨ e.type = "implements" := by
  intro e he
  cases st with
  | importStmt target clause =>
    exact Or.inl (processImport_type rx moduleId target clause e he)
  | exportStmt target hasClause =>
    cases hasClause with
    | true => simp [stmtEdges] at he
    | false =>
      simp only [stmtEdges, if_neg, Bool.false_eq_true, if_false,
        List.mem_singleton] at he
      rw [he]
      exact Or.inr (Or.inl rfl)
  | funcDecl name =>
    simp only [stmtEdges, List.mem_singleton] at he
    rw [he]
    exact Or.inr (Or.inl rfl)
  | classDecl name clauses members =>
    simp only [stmtEdges, List.mem_cons, List.mem_append] at he
    rcases he with he | he | he
    · rw [he]
      exact Or.inr (Or.inl rfl)
    · rcases processHeritageClause_type _ _ _ _ e he with h | h
      · exact Or.inr (Or.inr (Or.inr (Or.inl h)))
      · exact Or.inr (Or.inr (Or.inr (Or.inr h)))
    · exact Or.inr (Or.inl (classMemberEdges_type _ _ e he).2)
  | varStmt names =>
    rcases List.mem_map.mp he with ⟨n, _, heq⟩
    rw [← heq]
    exact Or.inr (Or.inl rfl)
  | interfaceDecl name =>
    simp only [stmtEdges, List.mem_singleton] at he
    rw [he]
    exact Or.inr (Or.inl rfl)
  | typeAliasDecl name =>
    simp only [stmtEdges, List.mem_singleton] at he
    rw [he]
    exact Or.inr (Or.inl rfl)
  | enumDecl name produced =>
    cases produced with
    | true =>
      simp only [stmtEdges, if_pos, List.mem_singleton] at he
      rw [he]
      exact Or.inr (Or.inl rfl)
    | false => simp [stmtEdges] at he

/-- C10: every edge the parser emits for a file, and hence every edge
the graph builder keeps, has kind import, export, call, extends or
implements; the reference kind admitted by EDGE_TYPES is never
constructed, and the class-to-member defines link is emitted with kind
export. -/
theorem edge_kinds_closed :
    (∀ (rx importMap : List (String × String)) (moduleId : String)
       (stmts : List Stmt) (cands : List (String × String)),
      ∀ e ∈ parsedFileEdges rx importMap moduleId stmts cands,
        (e.type = "import" ∨ e.type = "export" ∨ e.type = "call" ∨
          e.type = "extends" ∨ e.type = "implements") ∧
        e.type ∈ EDGE_TYPES ∧ e.type ≠ "reference") ∧
    (∀ (classId : String) (members : List ClassMember),
      ∀ e ∈ classMemberEdges classId members,
        e.source = classId ∧ e.type = "export") ∧
    (∀ (parsedFiles : List ParsedFile) (rootDir version : String),
      ∀ e ∈ (buildGraph parsedFiles rootDir version).edges,
        e ∈ parsedFiles.flatMap ParsedFile.edges) := by
  refine ⟨?_, classMemberEdges_type, ?_⟩
  · intro rx importMap moduleId stmts cands e he
    have hkind : e.type = "import" ∨ e.type = "export" ∨ e.type = "call" ∨
        e.type = "extends" ∨ e.type = "implements" := by
      rcases List.mem_append.mp he with he | he
      · rcases List.mem_flatMap.mp he with ⟨st, _, he⟩
        exact stmtEdges_type rx importMap moduleId st e he
      · exact Or.inr (Or.inr (Or.inl (collectCallEdges_type cands e he)))
    refine ⟨hkind, ?_, ?_⟩
    · rcases hkind with h | h | h | h | h <;> simp [EDGE_TYPES, h]
    · rcases hkind with h | h | h | h | h <;> simp [h]
  · intro parsedFiles rootDir version e he
    rw [buildGraph_edges_eq] at he
    exact dedupByKey_subset edgeKey _ [] e he

/-- Witness for edge_kinds_closed: the import edge of a file with one
named import, one class with an extends clause and a public method, and
one call candidate. -/
theorem edge_kinds_closed_witness :
    (({ source := "M", target := "B#f", type := "import" } : Edge).type =
        "import" ∨
      ({ source := "M", target := "B#f", type := "import" } : Edge).type =
        "export" ∨
      ({ source := "M", target := "B#f", type := "import" } : Edge).type =
        "call" ∨
      ({ source := "M", target := "B#f", type := "import" } : Edge).type =
        "extends" ∨
      ({ source := "M", target := "B#f", type := "import" } : Edge).type =
        "implements") ∧
    ({ source := "M", target := "B#f", type := "import" } : Edge).type ∈
        EDGE_TYPES ∧
      ({ source := "M", target := "B#f", type := "import" } : Edge).type ≠
        "reference" :=
  edge_kinds_closed.1 [] [("Base", "B#Base")] "M"
    [Stmt.importStmt "B" (some ⟨none, NamedBindings.named [⟨none, "f"⟩]⟩),
     Stmt.classDecl "C" [⟨HeritageToken.extendsKeyword, [some "Base"]⟩]
       [⟨MemberKind.methodDecl, true, "run", false, false⟩]]
    [("M#C.run", "B#f")]
    { source := "M", target := "B#f", type := "import" } (by decide)

end Chizuts
